import Mathlib

/-!
Shallow embedding of the `serde_array_query` crate (src/lib.rs, src/error.rs).

The crate decodes a flat list of string key/value pairs into a typed value by
implementing serde's `Deserializer` trait over a
`BTreeMap<String, VecDeque<String>>`.  We model:

* the error enum (`src/error.rs`);
* the `Deserializer` struct with its `BTreeMap` represented as an association
  list sorted strictly by key (the in-order view of a `BTreeMap`), queues as
  Lean lists consumed from the front;
* the store helpers `from_key_values`, `current_key`, `current_values`,
  `next_unit`;
* the trait methods the claims are about: `deserialize_map`,
  `deserialize_struct`, `deserialize_seq`, `deserialize_string`,
  `deserialize_enum`, the `SeqAccess::next_element_seed` loop for a
  `Vec<String>` field, the `UnitOnlyVariantAccess` callbacks, and the
  top-level `from_key_values` entry point.

Since serde drives the deserializer through a caller-supplied visitor, a
visitor is modelled as an arbitrary state-passing function
`Deserializer → Except Error α × Deserializer`: Rust's `&mut self` becomes
explicit state threading, and the `?` operator propagates the error together
with the state as the visitor left it.
-/

namespace SerdeArrayQuery

/-- The error enum of `src/error.rs` (the feature-gated `UrlEncoded` variant
belongs to the optional `from_str` entry point, which is out of scope). -/
inductive Error where
  | TrailingValues
  | ForbiddenNestedMap
  | ForbiddenNestedSequence
  | SequenceNotConsumed
  | MissingKey
  | MissingValues
  | MissingValue
  | ForbiddenTopLevelOption
  | ExpectedUnitVariant
  | RemoveKeyFailed (key : String)
  | Message (msg : String)
deriving DecidableEq, Repr

/-- The in-order contents of the `BTreeMap<String, VecDeque<String>>`:
an association list, kept strictly sorted by key. -/
abbrev Store := List (String × List String)

/-- The `Deserializer` struct of `src/lib.rs`. -/
structure Deserializer where
  key_values : Store
  in_map : Bool
  in_sequence : Bool
deriving DecidableEq, Repr

/-- Lexicographic comparison of two character lists, character by character
(characters compare by code point, which for UTF-8 strings agrees with
Rust's byte-wise `Ord` on `String` used by the `BTreeMap`). -/
def ltChars : List Char → List Char → Bool
  | [], [] => false
  | [], _ :: _ => true
  | _ :: _, [] => false
  | c :: cs, c' :: cs' =>
    if c < c' then true
    else if c' < c then false
    else ltChars cs cs'

/-- The `BTreeMap`'s key order: lexicographic comparison of the strings'
character sequences. -/
def keyLt (a b : String) : Bool := ltChars a.data b.data

/-- One step of `key_values.entry(k).or_default().push_back(v)` on the sorted
association-list view of the `BTreeMap`: append `v` to `k`'s queue, inserting
the key at its sorted position if absent. -/
def insertKV : Store → String → String → Store
  | [], k, v => [(k, [v])]
  | (k', q) :: rest, k, v =>
    if k = k' then (k', q ++ [v]) :: rest
    else if keyLt k k' then (k, [v]) :: (k', q) :: rest
    else (k', q) :: insertKV rest k v

/-- `Deserializer::from_key_values`: fold the input pairs into the store,
both context flags start out false. -/
def Deserializer.from_key_values (input : List (String × String)) : Deserializer :=
  { key_values := List.foldl (fun s p => insertKV s p.1 p.2) [] input
    in_map := false
    in_sequence := false }

/-- `Deserializer::current_key`: the first key of the `BTreeMap`
(`keys().next()`), i.e. the smallest key present; `MissingKey` if empty. -/
def current_key (d : Deserializer) : Except Error String :=
  match d.key_values with
  | [] => .error .MissingKey
  | (k, _) :: _ => .ok k

/-- `Deserializer::current_values`: the first value queue of the `BTreeMap`
(`values_mut().next()`); `MissingValues` if empty. -/
def current_values (d : Deserializer) : Except Error (List String) :=
  match d.key_values with
  | [] => .error .MissingValues
  | (_, q) :: _ => .ok q

/-- `BTreeMap::remove`: delete the entry for `k`, returning `none` when the
key is absent (the `ok_or_else(RemoveKeyFailed)` case in `next_unit`). -/
def removeStore : Store → String → Option Store
  | [], _ => none
  | (k', q) :: rest, k =>
    if k = k' then some rest
    else
      match removeStore rest k with
      | some rest' => some ((k', q) :: rest')
      | none => none

/-- `Deserializer::next_unit`.  `current_values()?` is the first queue
(`MissingValues` when the map is empty); `pop_front().ok_or(MissingValue)?`
pops its front in place; if the queue became empty the key is looked up with
`current_key()?` and removed (`RemoveKeyFailed` if absent) and `in_sequence`
is cleared.  Errors propagate with the state as mutated so far. -/
def next_unit : Deserializer → Except Error String × Deserializer
  | ⟨[], m, s⟩ => (.error .MissingValues, ⟨[], m, s⟩)
  | ⟨(k, []) :: rest, m, s⟩ => (.error .MissingValue, ⟨(k, []) :: rest, m, s⟩)
  | ⟨(k, v :: q) :: rest, m, s⟩ =>
    if q.isEmpty then
      match current_key ⟨(k, q) :: rest, m, s⟩ with
      | .error e => (.error e, ⟨(k, q) :: rest, m, s⟩)
      | .ok key =>
        match removeStore ((k, q) :: rest) key with
        | none => (.error (.RemoveKeyFailed key), ⟨(k, q) :: rest, m, s⟩)
        | some store' => (.ok v, ⟨store', m, false⟩)
    else (.ok v, ⟨(k, q) :: rest, m, s⟩)

/-- A serde visitor / seed, as the engine sees it: an arbitrary computation
driving the `&mut Deserializer` and producing a value or an error. -/
abbrev Visitor (α : Type) := Deserializer → Except Error α × Deserializer

/-- `deserialize_map`: reject when already `in_map` (`ForbiddenNestedMap`),
otherwise set the flag, run `visitor.visit_map(&mut self)?`, and clear the
flag on the success path.  On a visitor error, `?` returns early: the flag is
left exactly as the visitor left it. -/
def deserialize_map (visitor : Visitor α) (d : Deserializer) :
    Except Error α × Deserializer :=
  if d.in_map then (.error .ForbiddenNestedMap, d)
  else
    match visitor { d with in_map := true } with
    | (.ok a, d') => (.ok a, { d' with in_map := false })
    | (.error e, d') => (.error e, d')

/-- `deserialize_struct`: delegates to `deserialize_map`, ignoring the struct
name and field list. -/
def deserialize_struct (_name : String) (_fields : List String)
    (visitor : Visitor α) (d : Deserializer) : Except Error α × Deserializer :=
  deserialize_map visitor d

/-- `deserialize_seq`: reject when already `in_sequence`
(`ForbiddenNestedSequence`), otherwise set the flag and run
`visitor.visit_seq(&mut self)?`; if the flag is still set after a successful
visit, fail with `SequenceNotConsumed`. -/
def deserialize_seq (visitor : Visitor α) (d : Deserializer) :
    Except Error α × Deserializer :=
  if d.in_sequence then (.error .ForbiddenNestedSequence, d)
  else
    match visitor { d with in_sequence := true } with
    | (.ok a, d') =>
      if d'.in_sequence then (.error .SequenceNotConsumed, d') else (.ok a, d')
    | (.error e, d') => (.error e, d')

/-- `deserialize_string`: pop one value with `next_unit()?` and hand it to
the visitor's `visit_string`. -/
def deserialize_string (visitor : String → Except Error α) (d : Deserializer) :
    Except Error α × Deserializer :=
  match next_unit d with
  | (.ok value, d') => (visitor value, d')
  | (.error e, d') => (.error e, d')

/-- `deserialize_enum`: pop one value with `next_unit()?` and hand it to the
visitor's `visit_enum(EnumAccess(value))`; the visitor resolves the variant
from the value's text. -/
def deserialize_enum (visitor : String → Except Error α) (d : Deserializer) :
    Except Error α × Deserializer :=
  match next_unit d with
  | (.ok value, d') => (visitor value, d')
  | (.error e, d') => (.error e, d')

/-- `EnumAccess::variant_seed`: deserialize the variant identifier from the
popped value's text via a `StringDeserializer`, pairing it with the
unit-only variant access. -/
def EnumAccess.variant_seed (seed : String → Except Error β) (value : String) :
    Except Error (β × Unit) :=
  match seed value with
  | .ok variant => .ok (variant, ())
  | .error e => .error e

/-- `UnitOnlyVariantAccess::unit_variant`: always succeeds. -/
def UnitOnlyVariantAccess.unit_variant : Except Error Unit := .ok ()

/-- `UnitOnlyVariantAccess::newtype_variant_seed`: rejects payload data. -/
def UnitOnlyVariantAccess.newtype_variant_seed {β : Type}
    (_seed : String → Except Error β) : Except Error β :=
  .error .ExpectedUnitVariant

/-- `UnitOnlyVariantAccess::tuple_variant`: rejects payload data. -/
def UnitOnlyVariantAccess.tuple_variant {β : Type} (_len : Nat)
    (_visitor : Visitor β) : Except Error β :=
  .error .ExpectedUnitVariant

/-- `UnitOnlyVariantAccess::struct_variant`: rejects payload data. -/
def UnitOnlyVariantAccess.struct_variant {β : Type} (_fields : List String)
    (_visitor : Visitor β) : Except Error β :=
  .error .ExpectedUnitVariant

/-- The top-level `from_key_values` entry point: build the deserializer,
run `T::deserialize` (an arbitrary visitor-driven computation `dz`), then
require the store to be empty, else `TrailingValues`. -/
def from_key_values (dz : Visitor α) (input : List (String × String)) :
    Except Error α :=
  let d := Deserializer.from_key_values input
  match dz d with
  | (.ok t, d') => if d'.key_values.isEmpty then .ok t else .error .TrailingValues
  | (.error e, _) => .error e

/-- `SeqAccess::next_element_seed` instantiated with the `String` element
seed (whose `deserialize` calls `deserialize_string`, and whose visitor
returns the string itself): `Ok(None)` when not `in_sequence`, otherwise one
element via `seed.deserialize(&mut **self).map(Some)`. -/
def next_element_string (d : Deserializer) :
    Except Error (Option String) × Deserializer :=
  if !d.in_sequence then (.ok none, d)
  else
    match deserialize_string Except.ok d with
    | (.ok s, d') => (.ok (some s), d')
    | (.error e, d') => (.error e, d')

/-- Total number of values held in the store: the loop variant for the
sequence-element loop (each popped element removes one value). -/
def totalCount (d : Deserializer) : Nat :=
  (d.key_values.map (fun p => p.2.length)).sum

/-- The `Vec<String>` visitor's `visit_seq` loop: call
`next_element_seed` until it yields `Ok(None)`, collecting the strings. -/
def collectSeq (d : Deserializer) : Except Error (List String) × Deserializer :=
  match h : next_element_string d with
  | (.ok none, d') => (.ok [], d')
  | (.ok (some s), d') =>
    match collectSeq d' with
    | (.ok rest, d₂) => (.ok (s :: rest), d₂)
    | (.error e, d₂) => (.error e, d₂)
  | (.error e, d') => (.error e, d')
termination_by totalCount d
decreasing_by
  unfold next_element_string at h
  by_cases hs : d.in_sequence
  · simp [hs] at h
    unfold deserialize_string at h
    rcases hnu : next_unit d with ⟨r, d₁⟩
    rcases r with e | u <;> simp [hnu] at h
    obtain ⟨rfl, rfl⟩ := h
    obtain ⟨store, m, s₂⟩ := d
    cases store with
    | nil => simp [next_unit] at hnu
    | cons p rest =>
      obtain ⟨k, q₀⟩ := p
      cases q₀ with
      | nil => simp [next_unit] at hnu
      | cons v₀ q =>
        by_cases hq : q = []
        · subst hq
          simp [next_unit, current_key, removeStore] at hnu
          obtain ⟨rfl, rfl⟩ := hnu
          simp [totalCount]
        · simp [next_unit, List.isEmpty_iff, hq] at hnu
          obtain ⟨rfl, rfl⟩ := hnu
          simp [totalCount, hq]
  · simp [hs] at h

/-- Decoding a `Vec<String>` field: serde calls `deserialize_seq` with the
collecting visitor above. -/
def decode_string_seq (d : Deserializer) :
    Except Error (List String) × Deserializer :=
  deserialize_seq collectSeq d

/-! ### Store-level analysis: lookup, sortedness, the non-empty-queue
invariant, and how `insertKV` interacts with them. -/

/-- The values supplied for key `k` by the input pairs, in arrival order. -/
def valuesOf (input : List (String × String)) (k : String) : List String :=
  input.filterMap (fun p => if p.1 = k then some p.2 else none)

/-- Association-list lookup on the store (the `BTreeMap` entry for `k`). -/
def lookupStore : Store → String → Option (List String)
  | [], _ => none
  | (k', q) :: rest, k => if k = k' then some q else lookupStore rest k

/-- The keys of the store, in storage order. -/
def keysOf (s : Store) : List String := s.map Prod.fst

/-- The store is strictly sorted by key: the in-order view of a `BTreeMap`. -/
def SortedStore (s : Store) : Prop :=
  (keysOf s).Pairwise (fun a b => keyLt a b = true)

/-- The store invariant: every key present has a non-empty value queue. -/
def StoreInv (s : Store) : Prop := ∀ p ∈ s, p.2 ≠ ([] : List String)

/-- The store-building fold of `Deserializer::from_key_values`, standalone. -/
def buildStore (input : List (String × String)) : Store :=
  List.foldl (fun s p => insertKV s p.1 p.2) [] input

theorem ltChars_iff_lex : ∀ as bs : List Char,
    ltChars as bs = true ↔ List.Lex (· < ·) as bs := by
  intro as
  induction as with
  | nil =>
    intro bs
    cases bs with
    | nil =>
      apply iff_of_false
      · simp [ltChars]
      · intro h; cases h
    | cons b bs =>
      apply iff_of_true
      · simp [ltChars]
      · exact List.Lex.nil
  | cons a as ih =>
    intro bs
    cases bs with
    | nil =>
      apply iff_of_false
      · simp [ltChars]
      · intro h; cases h
    | cons b bs =>
      simp only [ltChars]
      by_cases hab : a < b
      · simp only [hab, if_true]
        exact iff_of_true (by simp) (List.Lex.rel hab)
      · by_cases hba : b < a
        · simp only [hab, if_false, hba, if_true]
          apply iff_of_false
          · simp
          · intro h
            cases h with
            | cons h' => exact lt_irrefl a hba
            | rel h' => exact hab h'
        · have hb : a = b := le_antisymm (not_lt.mp hba) (not_lt.mp hab)
          subst hb
          simp only [hab, if_false, ih]
          constructor
          · intro h; exact List.Lex.cons h
          · intro h
            cases h with
            | cons h' => exact h'
            | rel h' => exact absurd h' hab

/-- `keyLt` coincides with the lexicographic order `<` on `String`. -/
theorem keyLt_iff (a b : String) : keyLt a b = true ↔ a < b := by
  rw [keyLt, String.lt_iff_toList_lt]
  exact ltChars_iff_lex a.data b.data

theorem keyLt_of_false_of_ne {a b : String} (h : keyLt a b = false)
    (hne : a ≠ b) : keyLt b a = true := by
  rw [keyLt_iff]
  rcases lt_trichotomy a b with h1 | h1 | h1
  · exact absurd ((keyLt_iff a b).mpr h1) (by simp [h])
  · exact absurd h1 hne
  · exact h1

theorem keysOf_nil : keysOf [] = [] := rfl

theorem keysOf_cons (p : String × List String) (s : Store) :
    keysOf (p :: s) = p.1 :: keysOf s := rfl

theorem valuesOf_cons (k₁ v₁ : String) (tl : List (String × String)) (k : String) :
    valuesOf ((k₁, v₁) :: tl) k =
      if k₁ = k then v₁ :: valuesOf tl k else valuesOf tl k := by
  by_cases h : k₁ = k <;> simp [valuesOf, h]

theorem valuesOf_eq_nil_iff (input : List (String × String)) (k : String) :
    valuesOf input k = [] ↔ k ∉ input.map Prod.fst := by
  induction input with
  | nil => simp [valuesOf]
  | cons p tl ih =>
    obtain ⟨k₁, v₁⟩ := p
    rw [valuesOf_cons]
    by_cases h : k₁ = k
    · subst h
      simp
    · rw [if_neg h, ih]
      simp only [List.map_cons, List.mem_cons]
      constructor
      · intro hk hmem
        rcases hmem with rfl | hmem
        · exact h rfl
        · exact hk hmem
      · intro hk hmem
        exact hk (Or.inr hmem)

theorem length_valuesOf (input : List (String × String)) (k : String) :
    (valuesOf input k).length = (input.map Prod.fst).count k := by
  induction input with
  | nil => simp [valuesOf]
  | cons p tl ih =>
    obtain ⟨k₁, v₁⟩ := p
    rw [valuesOf_cons]
    by_cases h : k₁ = k
    · subst h
      simp [ih, List.count_cons]
    · have h' : ¬ k = k₁ := fun hk => h hk.symm
      rw [if_neg h]
      simp [ih, List.count_cons, h']

theorem lookupStore_isSome_iff (s : Store) (k : String) :
    (lookupStore s k).isSome ↔ k ∈ keysOf s := by
  induction s with
  | nil => simp [lookupStore, keysOf]
  | cons p rest ih =>
    obtain ⟨k', q⟩ := p
    rw [keysOf_cons]
    by_cases h : k = k'
    · subst h
      simp [lookupStore]
    · simp only [lookupStore, if_neg h, List.mem_cons]
      rw [ih]
      constructor
      · intro hk
        exact Or.inr hk
      · intro hk
        rcases hk with hk | hk
        · exact absurd hk h
        · exact hk

theorem lookupStore_eq_none_iff (s : Store) (k : String) :
    lookupStore s k = none ↔ k ∉ keysOf s := by
  rw [← lookupStore_isSome_iff]
  cases lookupStore s k <;> simp

theorem mem_keysOf_insertKV (s : Store) (k v : String) :
    ∀ key ∈ keysOf (insertKV s k v), key = k ∨ key ∈ keysOf s := by
  induction s with
  | nil => simp [insertKV, keysOf]
  | cons p rest ih =>
    obtain ⟨k', q⟩ := p
    intro key hkey
    by_cases he : k = k'
    · rw [insertKV, if_pos he, keysOf_cons] at hkey
      rw [keysOf_cons]
      rcases List.mem_cons.mp hkey with rfl | hkey
      · exact Or.inl he.symm
      · exact Or.inr (List.mem_cons.mpr (Or.inr hkey))
    · by_cases hlt : keyLt k k'
      · rw [insertKV, if_neg he, if_pos hlt, keysOf_cons] at hkey
        rcases List.mem_cons.mp hkey with rfl | hkey
        · exact Or.inl rfl
        · exact Or.inr hkey
      · rw [insertKV, if_neg he, if_neg hlt, keysOf_cons] at hkey
        rw [keysOf_cons]
        rcases List.mem_cons.mp hkey with rfl | hkey
        · exact Or.inr (List.mem_cons.mpr (Or.inl rfl))
        · rcases ih key hkey with h' | h'
          · exact Or.inl h'
          · exact Or.inr (List.mem_cons.mpr (Or.inr h'))

theorem sortedStore_cons (p : String × List String) (s : Store) :
    SortedStore (p :: s) ↔
      (∀ b ∈ keysOf s, keyLt p.1 b = true) ∧ SortedStore s := by
  rw [SortedStore, keysOf_cons, List.pairwise_cons]
  exact Iff.rfl

theorem sorted_insertKV {s : Store} (hs : SortedStore s) (k v : String) :
    SortedStore (insertKV s k v) := by
  induction s with
  | nil =>
    rw [insertKV, sortedStore_cons]
    exact ⟨by simp [keysOf], by simp [SortedStore, keysOf]⟩
  | cons p rest ih =>
    obtain ⟨k', q⟩ := p
    rw [sortedStore_cons] at hs
    obtain ⟨hhead, htail⟩ := hs
    by_cases he : k = k'
    · rw [insertKV, if_pos he, sortedStore_cons]
      exact ⟨hhead, htail⟩
    · by_cases hlt : keyLt k k'
      · rw [insertKV, if_neg he, if_pos hlt, sortedStore_cons]
        constructor
        · intro b hb
          rw [keysOf_cons] at hb
          rcases List.mem_cons.mp hb with rfl | hb
          · exact hlt
          · have h1 : k < k' := (keyLt_iff k k').mp hlt
            have h2 : k' < b := (keyLt_iff k' b).mp (hhead b hb)
            exact (keyLt_iff k b).mpr (lt_trans h1 h2)
        · rw [sortedStore_cons]
          exact ⟨hhead, htail⟩
      · rw [insertKV, if_neg he, if_neg hlt, sortedStore_cons]
        constructor
        · intro b hb
          rcases mem_keysOf_insertKV rest k v b hb with rfl | hb'
          · exact keyLt_of_false_of_ne (Bool.not_eq_true _ ▸ hlt) he
          · exact hhead b hb'
        · exact ih htail

theorem lookupStore_insertKV_self {s : Store} (hs : SortedStore s) (k v : String) :
    lookupStore (insertKV s k v) k = some ((lookupStore s k).getD [] ++ [v]) := by
  induction s with
  | nil => simp [insertKV, lookupStore]
  | cons p rest ih =>
    obtain ⟨k', q⟩ := p
    rw [sortedStore_cons] at hs
    obtain ⟨hhead, htail⟩ := hs
    by_cases he : k = k'
    · subst he
      simp [insertKV, lookupStore]
    · by_cases hlt : keyLt k k'
      · rw [insertKV, if_neg he, if_pos hlt]
        have hrest : lookupStore ((k', q) :: rest) k = none := by
          rw [lookupStore_eq_none_iff, keysOf_cons]
          intro hk
          rcases List.mem_cons.mp hk with rfl | hk
          · exact he rfl
          · have h1 : k < k' := (keyLt_iff k k').mp hlt
            have h2 : k' < k := (keyLt_iff k' k).mp (hhead k hk)
            exact lt_irrefl k (lt_trans h1 h2)
        rw [hrest]
        simp [lookupStore]
      · rw [insertKV, if_neg he, if_neg hlt]
        simp [lookupStore, he, ih htail]

theorem lookupStore_insertKV_ne (s : Store) {k k₀ : String} (hne : k₀ ≠ k)
    (v : String) : lookupStore (insertKV s k v) k₀ = lookupStore s k₀ := by
  induction s with
  | nil => simp [insertKV, lookupStore, hne]
  | cons p rest ih =>
    obtain ⟨k', q⟩ := p
    by_cases he : k = k'
    · subst he
      simp [insertKV, lookupStore, hne]
    · by_cases hlt : keyLt k k'
      · simp [insertKV, he, hlt, lookupStore, hne]
      · by_cases he₀ : k₀ = k' <;> simp [insertKV, he, hlt, lookupStore, he₀, ih]

/-! ### The store built by `Deserializer::from_key_values` -/

theorem from_key_values_key_values (input : List (String × String)) :
    (Deserializer.from_key_values input).key_values = buildStore input := rfl

theorem sortedStore_nil : SortedStore [] := by
  rw [SortedStore, keysOf_nil]
  exact List.Pairwise.nil

theorem sorted_foldl (input : List (String × String)) :
    ∀ s : Store, SortedStore s →
      SortedStore (List.foldl (fun s p => insertKV s p.1 p.2) s input) := by
  induction input with
  | nil =>
    intro s hs
    simpa using hs
  | cons p tl ih =>
    intro s hs
    rw [List.foldl_cons]
    exact ih _ (sorted_insertKV hs p.1 p.2)

theorem sorted_buildStore (input : List (String × String)) :
    SortedStore (buildStore input) :=
  sorted_foldl input [] sortedStore_nil

theorem lookup_foldl (input : List (String × String)) :
    ∀ s : Store, SortedStore s → ∀ k,
      lookupStore (List.foldl (fun s p => insertKV s p.1 p.2) s input) k =
        if lookupStore s k = none ∧ valuesOf input k = [] then none
        else some ((lookupStore s k).getD [] ++ valuesOf input k) := by
  induction input with
  | nil =>
    intro s hs k
    rw [List.foldl_nil]
    cases h : lookupStore s k with
    | none => simp [valuesOf, h]
    | some q => simp [valuesOf, h]
  | cons p tl ih =>
    intro s hs k
    obtain ⟨k₁, v₁⟩ := p
    rw [List.foldl_cons, ih (insertKV s k₁ v₁) (sorted_insertKV hs k₁ v₁) k]
    by_cases he : k₁ = k
    · subst he
      rw [lookupStore_insertKV_self hs, valuesOf_cons, if_pos rfl]
      cases lookupStore s k₁ <;> simp
    · have hne : k ≠ k₁ := fun hk => he hk.symm
      rw [lookupStore_insertKV_ne s hne v₁, valuesOf_cons, if_neg he]

theorem lookup_buildStore (input : List (String × String)) (k : String) :
    lookupStore (buildStore input) k =
      if valuesOf input k = [] then none else some (valuesOf input k) := by
  rw [buildStore, lookup_foldl input [] sortedStore_nil k]
  by_cases h : valuesOf input k = [] <;> simp [lookupStore, h]

/-! ### The non-empty-queue invariant -/

theorem inv_insertKV {s : Store} (h : StoreInv s) (k v : String) :
    StoreInv (insertKV s k v) := by
  induction s with
  | nil =>
    intro p hp
    rw [insertKV] at hp
    rcases List.mem_singleton.mp hp with rfl
    simp
  | cons hd rest ih =>
    obtain ⟨k', q⟩ := hd
    have hq : q ≠ [] := h (k', q) (List.mem_cons_self _ _)
    have hrest : StoreInv rest := fun p hp => h p (List.mem_cons.mpr (Or.inr hp))
    intro p hp
    by_cases he : k = k'
    · rw [insertKV, if_pos he] at hp
      rcases List.mem_cons.mp hp with rfl | hp
      · simp
      · exact hrest p hp
    · by_cases hlt : keyLt k k'
      · rw [insertKV, if_neg he, if_pos hlt] at hp
        rcases List.mem_cons.mp hp with rfl | hp
        · simp
        · exact h p hp
      · rw [insertKV, if_neg he, if_neg hlt] at hp
        rcases List.mem_cons.mp hp with rfl | hp
        · exact hq
        · exact ih hrest p hp

theorem inv_foldl (input : List (String × String)) :
    ∀ s : Store, StoreInv s →
      StoreInv (List.foldl (fun s p => insertKV s p.1 p.2) s input) := by
  induction input with
  | nil =>
    intro s hs
    simpa using hs
  | cons p tl ih =>
    intro s hs
    rw [List.foldl_cons]
    exact ih _ (inv_insertKV hs p.1 p.2)

theorem inv_buildStore (input : List (String × String)) :
    StoreInv (buildStore input) :=
  inv_foldl input [] (fun p hp => absurd hp (List.not_mem_nil p))

/-! ### `next_unit` computation rules -/

theorem next_unit_nil (m s : Bool) :
    next_unit ⟨[], m, s⟩ = (.error .MissingValues, ⟨[], m, s⟩) := rfl

theorem next_unit_empty_queue (k : String) (rest : Store) (m s : Bool) :
    next_unit ⟨(k, []) :: rest, m, s⟩ =
      (.error .MissingValue, ⟨(k, []) :: rest, m, s⟩) := rfl

theorem next_unit_singleton (k v : String) (rest : Store) (m s : Bool) :
    next_unit ⟨(k, [v]) :: rest, m, s⟩ = (.ok v, ⟨rest, m, false⟩) := by
  simp [next_unit, current_key, removeStore]

theorem next_unit_more (k v : String) {q : List String} (hq : q ≠ [])
    (rest : Store) (m s : Bool) :
    next_unit ⟨(k, v :: q) :: rest, m, s⟩ = (.ok v, ⟨(k, q) :: rest, m, s⟩) := by
  simp [next_unit, List.isEmpty_iff, hq]

theorem inv_next_unit {d : Deserializer} (h : StoreInv d.key_values) :
    ∀ r d', next_unit d = (r, d') → StoreInv d'.key_values := by
  obtain ⟨store, m, s⟩ := d
  intro r d' hstep
  match store with
  | [] =>
    rw [next_unit_nil] at hstep
    exact (Prod.mk.injEq _ _ _ _ ▸ hstep).2 ▸ h
  | (k, []) :: rest =>
    rw [next_unit_empty_queue] at hstep
    exact (Prod.mk.injEq _ _ _ _ ▸ hstep).2 ▸ h
  | (k, v :: q) :: rest =>
    by_cases hq : q = []
    · subst hq
      rw [next_unit_singleton] at hstep
      obtain ⟨-, rfl⟩ := Prod.mk.injEq _ _ _ _ ▸ hstep
      exact fun p hp => h p (List.mem_cons.mpr (Or.inr hp))
    · rw [next_unit_more k v hq] at hstep
      obtain ⟨-, rfl⟩ := Prod.mk.injEq _ _ _ _ ▸ hstep
      intro p hp
      rcases List.mem_cons.mp hp with rfl | hp
      · exact hq
      · exact h p (List.mem_cons.mpr (Or.inr hp))

/-! ### Sorted stores are determined by their lookup function -/

theorem sorted_head_lookup_tail {k : String} {q : List String} {rest : Store}
    (hs : SortedStore ((k, q) :: rest)) : lookupStore rest k = none := by
  rw [lookupStore_eq_none_iff]
  intro hk
  have := ((sortedStore_cons _ _).mp hs).1 k hk
  exact lt_irrefl k ((keyLt_iff k k).mp this)

theorem storeExt (s₁ : Store) : ∀ s₂ : Store, SortedStore s₁ → SortedStore s₂ →
    (∀ k, lookupStore s₁ k = lookupStore s₂ k) → s₁ = s₂ := by
  induction s₁ with
  | nil =>
    intro s₂ h₁ h₂ h
    cases s₂ with
    | nil => rfl
    | cons p rest =>
      obtain ⟨k₂, q₂⟩ := p
      have := h k₂
      simp [lookupStore] at this
  | cons p r₁ ih =>
    intro s₂ h₁ h₂ h
    obtain ⟨k₁, q₁⟩ := p
    cases s₂ with
    | nil =>
      have := h k₁
      simp [lookupStore] at this
    | cons p₂ r₂ =>
      obtain ⟨k₂, q₂⟩ := p₂
      have hk : k₁ = k₂ := by
        by_contra hne
        have hne' : k₂ ≠ k₁ := fun hh => hne hh.symm
        have e₁ : lookupStore ((k₂, q₂) :: r₂) k₁ = some q₁ := by
          rw [← h k₁]
          simp [lookupStore]
        have e₂ : lookupStore ((k₁, q₁) :: r₁) k₂ = some q₂ := by
          rw [h k₂]
          simp [lookupStore]
        rw [lookupStore, if_neg hne] at e₁
        rw [lookupStore, if_neg hne'] at e₂
        have m₁ : k₁ ∈ keysOf r₂ :=
          (lookupStore_isSome_iff r₂ k₁).mp (by rw [e₁]; rfl)
        have m₂ : k₂ ∈ keysOf r₁ :=
          (lookupStore_isSome_iff r₁ k₂).mp (by rw [e₂]; rfl)
        have l₁ : k₂ < k₁ :=
          (keyLt_iff k₂ k₁).mp (((sortedStore_cons _ _).mp h₂).1 k₁ m₁)
        have l₂ : k₁ < k₂ :=
          (keyLt_iff k₁ k₂).mp (((sortedStore_cons _ _).mp h₁).1 k₂ m₂)
        exact lt_irrefl k₁ (lt_trans l₂ l₁)
      subst hk
      have hq : q₁ = q₂ := by
        have := h k₁
        simpa [lookupStore] using this
      subst hq
      have htails : ∀ k, lookupStore r₁ k = lookupStore r₂ k := by
        intro k
        by_cases hk : k = k₁
        · subst hk
          rw [sorted_head_lookup_tail h₁, sorted_head_lookup_tail h₂]
        · have := h k
          rw [lookupStore, if_neg hk, lookupStore, if_neg hk] at this
          exact this
      rw [ih r₂ ((sortedStore_cons _ _).mp h₁).2 ((sortedStore_cons _ _).mp h₂).2
        htails]

/-! ### The sequence-element loop -/

theorem next_element_string_off {d : Deserializer} (h : d.in_sequence = false) :
    next_element_string d = (.ok none, d) := by
  rw [next_element_string]
  simp [h]

theorem next_element_string_singleton (k v : String) (rest : Store) (m : Bool) :
    next_element_string ⟨(k, [v]) :: rest, m, true⟩ =
      (.ok (some v), ⟨rest, m, false⟩) := by
  rw [next_element_string]
  simp [deserialize_string, next_unit_singleton]

theorem next_element_string_more (k v : String) {q : List String} (hq : q ≠ [])
    (rest : Store) (m : Bool) :
    next_element_string ⟨(k, v :: q) :: rest, m, true⟩ =
      (.ok (some v), ⟨(k, q) :: rest, m, true⟩) := by
  rw [next_element_string]
  simp [deserialize_string, next_unit_more k v hq]

theorem collectSeq_eq (d : Deserializer) : collectSeq d =
    (match next_element_string d with
     | (.ok none, d') => (.ok [], d')
     | (.ok (some s), d') =>
       (match collectSeq d' with
        | (.ok rest, d₂) => (.ok (s :: rest), d₂)
        | (.error e, d₂) => (.error e, d₂))
     | (.error e, d') => (.error e, d')) := by
  rw [collectSeq.eq_def]
  split <;> rename_i heq <;> rw [heq]

theorem collectSeq_of_none {d d' : Deserializer}
    (h : next_element_string d = (.ok none, d')) :
    collectSeq d = (.ok [], d') := by
  rw [collectSeq_eq, h]

theorem collectSeq_of_some {d d' : Deserializer} {v : String}
    (h : next_element_string d = (.ok (some v), d')) :
    collectSeq d =
      (match collectSeq d' with
       | (.ok rest, d₂) => (.ok (v :: rest), d₂)
       | (.error e, d₂) => (.error e, d₂)) := by
  rw [collectSeq_eq, h]

/-- The sequence loop over the current key `k` with queue `vs` pops the whole
queue front-to-back, stops when the `in_sequence` flag is cleared by the pop
that empties the queue, and returns exactly `vs`. -/
theorem collectSeq_drains (vs : List String) (hvs : vs ≠ []) :
    ∀ (k : String) (rest : Store) (m : Bool),
      collectSeq ⟨(k, vs) :: rest, m, true⟩ = (.ok vs, ⟨rest, m, false⟩) := by
  induction vs with
  | nil => exact absurd rfl hvs
  | cons v q ih =>
    intro k rest m
    by_cases hq : q = []
    · subst hq
      rw [collectSeq_of_some (next_element_string_singleton k v rest m),
        collectSeq_of_none (next_element_string_off rfl)]
    · rw [collectSeq_of_some (next_element_string_more k v hq rest m),
        ih hq k rest m]

/-- In a sorted store, a key that is present and minimal is the head entry. -/
theorem sorted_min_head {s : Store} (hs : SortedStore s) {k : String}
    (hmem : k ∈ keysOf s) (hmin : ∀ k' ∈ keysOf s, k ≤ k') :
    ∃ q tail, s = (k, q) :: tail ∧ lookupStore s k = some q := by
  cases s with
  | nil => rw [keysOf_nil] at hmem; cases hmem
  | cons p tail =>
    obtain ⟨k₀, q₀⟩ := p
    have hk : k = k₀ := by
      rw [keysOf_cons] at hmem
      rcases List.mem_cons.mp hmem with h | h
      · exact h
      · have h1 : k₀ < k :=
          (keyLt_iff _ _).mp (((sortedStore_cons _ _).mp hs).1 k h)
        have h2 : k ≤ k₀ :=
          hmin k₀ (by rw [keysOf_cons]; exact List.mem_cons_self _ _)
        exact absurd h1 (not_lt.mpr h2)
    subst hk
    exact ⟨q₀, tail, rfl, by simp [lookupStore]⟩

theorem deserialize_seq_off {α} (visitor : Visitor α) (store : Store) (m : Bool) :
    deserialize_seq visitor ⟨store, m, false⟩ =
      (match visitor ⟨store, m, true⟩ with
       | (.ok a, d') =>
         if d'.in_sequence then (.error .SequenceNotConsumed, d') else (.ok a, d')
       | (.error e, d') => (.error e, d')) := rfl

theorem from_key_values_run {α} (dz : Visitor α) (input : List (String × String)) :
    from_key_values dz input =
      (match dz (Deserializer.from_key_values input) with
       | (.ok t, d') =>
         if d'.key_values.isEmpty then .ok t else .error .TrailingValues
       | (.error e, _) => .error e) := rfl

/-! ### The claims -/

/-- C1: for an input pair list in which key `k` appears `N ≥ 1` times and is
the current (smallest) key, decoding a `Vec<String>` field pops `k`'s whole
queue front-to-back: the result is exactly the `N` values supplied for `k`
in arrival order, `k`'s entry is gone from the store afterwards, and the
sequence ended by natural exhaustion (the flag is back to `false`). -/
theorem C1_repeated_key_sequence (input : List (String × String)) (k : String)
    (hmem : k ∈ input.map Prod.fst)
    (hmin : ∀ k' ∈ input.map Prod.fst, k ≤ k') :
    decode_string_seq (Deserializer.from_key_values input) =
      (.ok (valuesOf input k), ⟨List.tail (buildStore input), false, false⟩) ∧
    (valuesOf input k).length = (input.map Prod.fst).count k := by
  have hvs : valuesOf input k ≠ [] := by
    intro h0
    exact (valuesOf_eq_nil_iff input k).mp h0 hmem
  have hlook : lookupStore (buildStore input) k = some (valuesOf input k) := by
    rw [lookup_buildStore, if_neg hvs]
  have hmem' : k ∈ keysOf (buildStore input) :=
    (lookupStore_isSome_iff _ _).mp (by rw [hlook]; rfl)
  have hmin' : ∀ k' ∈ keysOf (buildStore input), k ≤ k' := by
    intro k' hk'
    apply hmin k'
    by_contra hnot
    have h0 : valuesOf input k' = [] := (valuesOf_eq_nil_iff input k').mpr hnot
    have := (lookupStore_isSome_iff _ _).mpr hk'
    rw [lookup_buildStore, if_pos h0] at this
    simp at this
  obtain ⟨q, tail, hsplit, hlook2⟩ :=
    sorted_min_head (sorted_buildStore input) hmem' hmin'
  have hq : q = valuesOf input k := by
    rw [hsplit] at hlook
    simp [lookupStore] at hlook
    exact hlook
  subst hq
  refine ⟨?_, length_valuesOf input k⟩
  have hd0 : Deserializer.from_key_values input =
      ⟨(k, valuesOf input k) :: tail, false, false⟩ := by
    have e : Deserializer.from_key_values input =
        ⟨buildStore input, false, false⟩ := rfl
    rw [e, hsplit]
  rw [decode_string_seq, hd0, deserialize_seq_off,
    collectSeq_drains (valuesOf input k) hvs k tail false, hsplit]
  rfl

/-- C1 witness: `id=1&id=2&id=3` decoded as a `Vec<String>` field yields
`["1","2","3"]`. -/
theorem C1_repeated_key_sequence_witness :
    (decode_string_seq (Deserializer.from_key_values
        [("id", "1"), ("id", "2"), ("id", "3")])).1 =
      .ok ["1", "2", "3"] := by
  have h := C1_repeated_key_sequence [("id", "1"), ("id", "2"), ("id", "3")] "id"
    (by decide)
    (by
      intro k' hk'
      simp at hk'
      subst hk'
      exact le_refl _)
  rw [h.1]
  rfl

/-- C2 counterexample: with a visitor that fails, `deserialize_map` on a
fresh state returns with `in_map` still `true` — the flag is not cleared on
the error path (the `?` returns before `self.in_map = false` runs),
contradicting the claim that it is cleared on every return path. -/
theorem C2_cex :
    ((deserialize_map
        (fun d => ((Except.error (Error.Message "boom") : Except Error Unit), d))
        ⟨[("a", ["1"])], false, false⟩).2).in_map = true := rfl

/-- C2 (amended): starting outside a record context, `deserialize_map` sets
`in_map`, runs the visitor, and clears the flag on the success path only; if
the visitor returns an error, the error propagates immediately and `in_map`
is left exactly as the visitor left it (still set, unless the visitor
changed it). -/
theorem C2_map_flag {α} (visitor : Visitor α) (d : Deserializer)
    (hm : d.in_map = false) :
    (∀ a d', visitor { d with in_map := true } = (.ok a, d') →
      deserialize_map visitor d = (.ok a, { d' with in_map := false })) ∧
    (∀ e d', visitor { d with in_map := true } = (.error e, d') →
      deserialize_map visitor d = (.error e, d')) := by
  constructor
  · intro a d' hv
    rw [deserialize_map, if_neg (by simp [hm]), hv]
  · intro e d' hv
    rw [deserialize_map, if_neg (by simp [hm]), hv]

/-- C2 witness: a successful visit returns with `in_map` cleared. -/
theorem C2_map_flag_witness :
    deserialize_map (fun d => (Except.ok (), d)) ⟨[], false, false⟩ =
      (.ok (), ⟨[], false, false⟩) := by
  have h := (C2_map_flag (fun d => (Except.ok (), d)) ⟨[], false, false⟩ rfl).1
    () ⟨[], true, false⟩ rfl
  simpa using h

/-- C3: with `in_map` already set, `deserialize_map` (and `deserialize_struct`,
which delegates to it) fails with `ForbiddenNestedMap` leaving the state — in
particular the store — untouched; with `in_map` clear, `deserialize_map`
itself never produces that error: if the call returns it, the visitor did. -/
theorem C3_nested_map {α} (visitor : Visitor α) (d : Deserializer)
    (name : String) (fields : List String) :
    (d.in_map = true →
      deserialize_map visitor d = (.error .ForbiddenNestedMap, d) ∧
      deserialize_struct name fields visitor d = (.error .ForbiddenNestedMap, d)) ∧
    (d.in_map = false →
      (deserialize_map visitor d).1 = .error .ForbiddenNestedMap →
      (visitor { d with in_map := true }).1 = .error .ForbiddenNestedMap) := by
  constructor
  · intro hm
    have e : deserialize_map visitor d = (.error .ForbiddenNestedMap, d) := by
      rw [deserialize_map, if_pos hm]
    exact ⟨e, by rw [deserialize_struct]; exact e⟩
  · intro hm hfail
    rw [deserialize_map, if_neg (by simp [hm])] at hfail
    rcases hv : visitor { d with in_map := true } with ⟨r, d'⟩
    rcases r with e | a
    · rw [hv] at hfail
      simp at hfail
      simp [hfail]
    · rw [hv] at hfail
      simp at hfail

/-- C3 witness: a nested record request is rejected with the state intact. -/
theorem C3_nested_map_witness :
    deserialize_map (fun d => (Except.ok (), d)) ⟨[("a", ["1"])], true, false⟩ =
      (.error .ForbiddenNestedMap, ⟨[("a", ["1"])], true, false⟩) :=
  ((C3_nested_map (fun d => (Except.ok (), d))
    ⟨[("a", ["1"])], true, false⟩ "S" []).1 rfl).1

/-- C4: with `in_sequence` already set `deserialize_seq` fails with
`ForbiddenNestedSequence`; otherwise it sets the flag and runs the visitor;
a successful visit that leaves the flag set yields `SequenceNotConsumed`, so
`deserialize_seq` succeeds only when the flag was cleared by exhaustion of
the current key's queue. -/
theorem C4_sequence_guard {α} (visitor : Visitor α) (d : Deserializer) :
    (d.in_sequence = true →
      deserialize_seq visitor d = (.error .ForbiddenNestedSequence, d)) ∧
    (d.in_sequence = false →
      (∀ a d', visitor { d with in_sequence := true } = (.ok a, d') →
        deserialize_seq visitor d =
          (if d'.in_sequence then (.error .SequenceNotConsumed, d')
           else (.ok a, d'))) ∧
      (∀ e d', visitor { d with in_sequence := true } = (.error e, d') →
        deserialize_seq visitor d = (.error e, d'))) ∧
    (∀ a d', deserialize_seq visitor d = (.ok a, d') → d'.in_sequence = false) := by
  refine ⟨?_, ?_, ?_⟩
  · intro hs
    rw [deserialize_seq, if_pos hs]
  · intro hs
    constructor
    · intro a d' hv
      rw [deserialize_seq, if_neg (by simp [hs]), hv]
    · intro e d' hv
      rw [deserialize_seq, if_neg (by simp [hs]), hv]
  · intro a d' hres
    rw [deserialize_seq] at hres
    by_cases hs : d.in_sequence
    · rw [if_pos hs] at hres
      simp at hres
    · rw [if_neg hs] at hres
      rcases hv : visitor { d with in_sequence := true } with ⟨r, d₂⟩
      rcases r with e | b
      · rw [hv] at hres
        simp at hres
      · rw [hv] at hres
        have hres' : (if d₂.in_sequence then
            ((.error .SequenceNotConsumed, d₂) : Except Error α × Deserializer)
            else (.ok b, d₂)) = (.ok a, d') := hres
        by_cases h2 : d₂.in_sequence
        · rw [if_pos h2] at hres'
          simp at hres'
        · rw [if_neg h2] at hres'
          simp at hres'
          rw [← hres'.2]
          exact Bool.not_eq_true _ ▸ h2

/-- C4 witness: a nested sequence request is rejected. -/
theorem C4_sequence_guard_witness :
    deserialize_seq (fun d => (Except.ok (), d)) ⟨[], false, true⟩ =
      (.error .ForbiddenNestedSequence, ⟨[], false, true⟩) :=
  (C4_sequence_guard (fun d => (Except.ok (), d)) ⟨[], false, true⟩).1 rfl

/-- C5: `from_key_values` returns `Ok(t)` exactly when `T::deserialize`
succeeds with `t` and leaves the store empty; a success with leftover keys
becomes `TrailingValues`; a `deserialize` error is returned unchanged. -/
theorem C5_top_level {α} (dz : Visitor α) (input : List (String × String)) :
    (∀ t, from_key_values dz input = .ok t ↔
      ∃ d', dz (Deserializer.from_key_values input) = (.ok t, d') ∧
        d'.key_values = []) ∧
    (∀ t d', dz (Deserializer.from_key_values input) = (.ok t, d') →
      d'.key_values ≠ [] → from_key_values dz input = .error .TrailingValues) ∧
    (∀ e d', dz (Deserializer.from_key_values input) = (.error e, d') →
      from_key_values dz input = .error e) := by
  have hrun : from_key_values dz input =
      (match dz (Deserializer.from_key_values input) with
       | (.ok t, d') =>
         if d'.key_values.isEmpty then Except.ok t
         else Except.error Error.TrailingValues
       | (.error e, _) => Except.error e) := rfl
  rcases hv : dz (Deserializer.from_key_values input) with ⟨r, d₀⟩
  rw [hv] at hrun
  rcases r with e₀ | t₀
  · have hrun' : from_key_values dz input = .error e₀ := hrun
    refine ⟨?_, ?_, ?_⟩
    · intro t
      rw [hrun']
      constructor
      · intro h
        simp at h
      · rintro ⟨d', hd', -⟩
        simp at hd'
    · intro t d' hd'
      simp at hd'
    · intro e d' hd'
      simp at hd'
      rw [hrun', hd'.1]
  · have hrun' : from_key_values dz input =
        (if d₀.key_values.isEmpty then Except.ok t₀
         else Except.error Error.TrailingValues) := hrun
    refine ⟨?_, ?_, ?_⟩
    · intro t
      rw [hrun']
      by_cases he : d₀.key_values.isEmpty
      · rw [if_pos he]
        constructor
        · intro h
          simp at h
          exact ⟨d₀, by simp [h], List.isEmpty_iff.mp he⟩
        · rintro ⟨d', hd', -⟩
          simp at hd'
          simp [hd'.1]
      · rw [if_neg he]
        constructor
        · intro h
          simp at h
        · rintro ⟨d', hd', hnil⟩
          simp at hd'
          rw [← hd'.2] at hnil
          exact absurd (List.isEmpty_iff.mpr hnil) he
    · intro t d' hd' hne
      simp at hd'
      have hne₀ : ¬ d₀.key_values.isEmpty = true := by
        rw [hd'.2]
        simpa [List.isEmpty_iff] using hne
      rw [hrun', if_neg hne₀]
    · intro e d' hd'
      simp at hd'

/-- C5 witness: a deserialize that consumes nothing over an empty input
succeeds at top level (the store is empty). -/
theorem C5_top_level_witness :
    from_key_values (fun d => (Except.ok (7 : Nat), d))
      ([] : List (String × String)) = .ok 7 :=
  ((C5_top_level (fun d => (Except.ok (7 : Nat), d)) []).1 7).mpr
    ⟨Deserializer.from_key_values [], rfl, rfl⟩

/-- C6: the store invariant — every key present has a non-empty queue —
holds for the store `Deserializer::from_key_values` builds from any input,
and is preserved by `next_unit`; in particular, when the pop leaves a
singleton queue empty, `next_unit` removes the key in the same step. -/
theorem C6_store_invariant (input : List (String × String))
    (d d' : Deserializer) (r : Except Error String)
    (hinv : StoreInv d.key_values) (hstep : next_unit d = (r, d')) :
    StoreInv (Deserializer.from_key_values input).key_values ∧
    StoreInv d'.key_values ∧
    (∀ k v rest, d.key_values = (k, [v]) :: rest →
      next_unit d = (.ok v, ⟨rest, d.in_map, false⟩)) := by
  refine ⟨?_, inv_next_unit hinv r d' hstep, ?_⟩
  · rw [from_key_values_key_values]
    exact inv_buildStore input
  · intro k v rest hkv
    obtain ⟨store, m, s⟩ := d
    simp only at hkv
    subst hkv
    exact next_unit_singleton k v rest m s

/-- C6 witness: the invariant holds for a built store and after one step. -/
theorem C6_store_invariant_witness :
    StoreInv (Deserializer.from_key_values [("a", "1")]).key_values ∧
    StoreInv (⟨[], false, false⟩ : Deserializer).key_values := by
  have h := C6_store_invariant [("a", "1")] ⟨[("a", ["1"])], false, false⟩
    ⟨[], false, false⟩ (.ok "1")
    (by
      intro p hp
      rcases List.mem_singleton.mp hp with rfl
      simp) rfl
  exact ⟨h.1, h.2.1⟩

/-- C7: the built store maps each key present in the input to that key's
values in arrival order (and holds no other keys); it is sorted by key;
`current_key` fails with `MissingKey` exactly on the empty store and
otherwise returns a key of the store that is `≤` every key present — the
lexicographically smallest remaining key. -/
theorem C7_store_order (input : List (String × String)) (k : String)
    (d : Deserializer) (hd : SortedStore d.key_values) :
    SortedStore (Deserializer.from_key_values input).key_values ∧
    lookupStore (Deserializer.from_key_values input).key_values k =
      (if valuesOf input k = [] then none else some (valuesOf input k)) ∧
    (current_key d = .error .MissingKey ↔ d.key_values = []) ∧
    (∀ k₀, current_key d = .ok k₀ →
      k₀ ∈ keysOf d.key_values ∧ ∀ k' ∈ keysOf d.key_values, k₀ ≤ k') := by
  refine ⟨?_, ?_, ?_, ?_⟩
  · rw [from_key_values_key_values]
    exact sorted_buildStore input
  · rw [from_key_values_key_values]
    exact lookup_buildStore input k
  · obtain ⟨store, m, s⟩ := d
    cases store with
    | nil => simp [current_key]
    | cons p rest =>
      obtain ⟨k₀, q₀⟩ := p
      simp [current_key]
  · intro k₀ hk₀
    obtain ⟨store, m, s⟩ := d
    cases store with
    | nil => simp [current_key] at hk₀
    | cons p rest =>
      obtain ⟨k₁, q₁⟩ := p
      simp [current_key] at hk₀
      subst hk₀
      constructor
      · rw [keysOf_cons]
        exact List.mem_cons_self _ _
      · intro k' hk'
        rw [keysOf_cons] at hk'
        rcases List.mem_cons.mp hk' with rfl | hk'
        · exact le_refl _
        · exact le_of_lt
            ((keyLt_iff _ _).mp (((sortedStore_cons _ _).mp hd).1 k' hk'))

/-- C7 witness: for `b=2&a=1`, the store holds `a ↦ ["1"]` and `current_key`
returns `"a"`, the smaller key, not the first-arrived `"b"`. -/
theorem C7_store_order_witness :
    lookupStore (Deserializer.from_key_values
      [("b", "2"), ("a", "1")]).key_values "a" = some ["1"] ∧
    current_key (Deserializer.from_key_values [("b", "2"), ("a", "1")]) =
      .ok "a" := by
  have h := C7_store_order [("b", "2"), ("a", "1")] "a"
    (Deserializer.from_key_values [("b", "2"), ("a", "1")])
    (from_key_values_key_values _ ▸ sorted_buildStore _)
  constructor
  · rw [h.2.1]
    rfl
  · rfl

/-- C8: with the current key's queue non-empty, `deserialize_enum` pops
exactly one value and hands its text to the visitor (which resolves the
variant from it); on the variant access, `unit_variant` succeeds while
newtype, tuple and struct payload requests all fail `ExpectedUnitVariant`. -/
theorem C8_enum_unit_only {α : Type} (visitor : String → Except Error α)
    (d : Deserializer) (k v : String) (q : List String) (rest : Store)
    (hd : d.key_values = (k, v :: q) :: rest) :
    deserialize_enum visitor d =
      (visitor v,
        ⟨if q = [] then rest else (k, q) :: rest, d.in_map,
          if q = [] then false else d.in_sequence⟩) ∧
    UnitOnlyVariantAccess.unit_variant = .ok () ∧
    (∀ seed : String → Except Error α,
      UnitOnlyVariantAccess.newtype_variant_seed seed =
        .error .ExpectedUnitVariant) ∧
    (∀ (len : Nat) (vis : Visitor α),
      UnitOnlyVariantAccess.tuple_variant len vis =
        .error .ExpectedUnitVariant) ∧
    (∀ (fields : List String) (vis : Visitor α),
      UnitOnlyVariantAccess.struct_variant fields vis =
        .error .ExpectedUnitVariant) := by
  refine ⟨?_, rfl, fun _ => rfl, fun _ _ => rfl, fun _ _ => rfl⟩
  obtain ⟨store, m, s⟩ := d
  simp only at hd
  subst hd
  rw [deserialize_enum]
  by_cases hq : q = []
  · subst hq
    rw [next_unit_singleton]
    simp
  · rw [next_unit_more k v hq]
    simp [hq]

/-- C8 witness: `deserialize_enum` pops the single value `"a"` of key `"k"`
and passes it to the variant visitor. -/
theorem C8_enum_unit_only_witness :
    deserialize_enum Except.ok ⟨[("k", ["a"])], false, false⟩ =
      (Except.ok "a", ⟨[], false, false⟩) := by
  have h := (C8_enum_unit_only Except.ok ⟨[("k", ["a"])], false, false⟩
    "k" "a" [] [] rfl).1
  simpa using h

/-- C9: under the store invariant, `next_unit` can never return
`RemoveKeyFailed`: when the popped queue empties, `current_key` returns the
first key and its removal always finds it. -/
theorem C9_remove_key_unreachable (d : Deserializer)
    (hinv : StoreInv d.key_values) :
    ∀ key : String, (next_unit d).1 ≠ .error (.RemoveKeyFailed key) := by
  intro key
  obtain ⟨store, m, s⟩ := d
  match store with
  | [] =>
    rw [next_unit_nil]
    simp
  | (k, []) :: rest =>
    rw [next_unit_empty_queue]
    simp
  | (k, v :: q) :: rest =>
    by_cases hq : q = []
    · subst hq
      rw [next_unit_singleton]
      simp
    · rw [next_unit_more k v hq]
      simp

/-- C9 witness. -/
theorem C9_remove_key_unreachable_witness :
    (next_unit ⟨[("a", ["1"])], false, false⟩).1 ≠
      Except.error (Error.RemoveKeyFailed "a") :=
  C9_remove_key_unreachable ⟨[("a", ["1"])], false, false⟩
    (by
      intro p hp
      rcases List.mem_singleton.mp hp with rfl
      simp) "a"

/-- C10: two inputs that are permutations of each other with the same
per-key value lists (i.e. only pairs with distinct keys were interleaved
differently) build identical deserializer states, hence every decode gives
the same result on both. -/
theorem C10_order_independence {α : Type} (dz : Visitor α)
    (input₁ input₂ : List (String × String))
    (_hperm : input₁.Perm input₂)
    (hkeys : ∀ k, valuesOf input₁ k = valuesOf input₂ k) :
    Deserializer.from_key_values input₁ = Deserializer.from_key_values input₂ ∧
    from_key_values dz input₁ = from_key_values dz input₂ := by
  have hstore : buildStore input₁ = buildStore input₂ := by
    apply storeExt _ _ (sorted_buildStore _) (sorted_buildStore _)
    intro k
    rw [lookup_buildStore, lookup_buildStore, hkeys k]
  have hd : Deserializer.from_key_values input₁ =
      Deserializer.from_key_values input₂ := by
    have e₁ : Deserializer.from_key_values input₁ =
        ⟨buildStore input₁, false, false⟩ := rfl
    have e₂ : Deserializer.from_key_values input₂ =
        ⟨buildStore input₂, false, false⟩ := rfl
    rw [e₁, e₂, hstore]
  refine ⟨hd, ?_⟩
  rw [from_key_values_run, from_key_values_run, hd]

/-- C10 witness: swapping the distinct-key pairs `a=1` and `b=2` leaves the
decode result unchanged. -/
theorem C10_order_independence_witness :
    from_key_values (fun d => (Except.ok d.key_values, ⟨[], d.in_map, d.in_sequence⟩))
        [("a", "1"), ("b", "2")] =
      from_key_values (fun d => (Except.ok d.key_values, ⟨[], d.in_map, d.in_sequence⟩))
        [("b", "2"), ("a", "1")] := by
  have h := C10_order_independence
    (fun d => (Except.ok d.key_values, ⟨[], d.in_map, d.in_sequence⟩))
    [("a", "1"), ("b", "2")] [("b", "2"), ("a", "1")]
    (by decide)
    (by
      intro k
      by_cases h1 : "a" = k
      · by_cases h2 : "b" = k
        · exact absurd (h1.trans h2.symm) (by decide)
        · simp [valuesOf, h1, h2]
      · by_cases h2 : "b" = k <;> simp [valuesOf, h1, h2])
  exact h.2

end SerdeArrayQuery
